import Mathlib

/-!
Verification of the Ugolki rules engine, the random agent and the match
coordinator's move handler, shallowly embedded from the repository sources
(`src/games/ugolki.py`, `src/agents/random_agent.py`,
`src/backend/api/game_websocket.py`).
-/

namespace UgolkiSpec

/-- A coordinate on the board: (row, col) as integers, mirroring the Python ints. -/
abbrev Pos := Int × Int

/-- The board: an integer value per cell, 1 = White, -1 = Black, 0 = Empty.
Mirrors the 8x8 torch tensor of longs; only cells with row and col in [0, 8)
are meaningful, and every operation guards indices with `is_valid` exactly as
the source does. -/
abbrev Board := Int → Int → Int

/-- An action is an ordered pair (from-position, to-position). -/
abbrev MoveAction := Pos × Pos

/-- The two players; the source represents them with the strings
"white" and "black". -/
inductive Player where
  | white
  | black
deriving DecidableEq, Repr

/-- The tensor value used for the pieces of a player (1 for white, -1 for black),
as in `get_legal_actions`. -/
def pieceValue : Player → Int
  | .white => 1
  | .black => -1

/-- Game state: the board tensor together with whose turn it is
(the `score_white` / `score_black` fields of the source are never updated and
are omitted). -/
structure Ugolki where
  board : Board
  turn : Player

/-- Directions: North, East, South, West — `DIRECTIONS` in `ugolki.py`. -/
def DIRECTIONS : List (Int × Int) := [(-1, 0), (0, 1), (1, 0), (0, -1)]

/-- Bounds check, `Ugolki._is_valid`. -/
def is_valid (r c : Int) : Prop :=
  0 ≤ r ∧ r < 8 ∧ 0 ≤ c ∧ c < 8

instance (r c : Int) : Decidable (is_valid r c) :=
  inferInstanceAs (Decidable (0 ≤ r ∧ r < 8 ∧ 0 ≤ c ∧ c < 8))

/-- Point update of a board cell, modelling a tensor element assignment. -/
def setCell (b : Board) (p : Pos) (v : Int) : Board :=
  fun r c => if r = p.1 ∧ c = p.2 then v else b r c

/-- `Ugolki.create_game`: zero board, White pieces on rows 0-3 x cols 0-3,
Black pieces on rows 4-7 x cols 4-7, White to move. -/
def create_game : Ugolki where
  board := fun r c =>
    if 0 ≤ r ∧ r < 4 ∧ 0 ≤ c ∧ c < 4 then 1
    else if 4 ≤ r ∧ r < 8 ∧ 4 ≤ c ∧ c < 8 then -1
    else 0
  turn := .white

/-- `Ugolki.apply_action`: writes the source cell's value into the destination
cell, then zeroes the source cell, then switches the turn.  No validation. -/
def apply_action (g : Ugolki) (a : MoveAction) : Ugolki where
  board := setCell (setCell g.board a.2 (g.board a.1.1 a.1.2)) a.1 0
  turn := if g.turn = .white then .black else .white

/-- All 64 board positions in row-major order. -/
def allPos : List Pos :=
  (List.range 8).flatMap fun (r : Nat) => (List.range 8).map fun (c : Nat) => ((r : Int), (c : Int))

/-- Number of positions in `ps` whose cell holds value `v`; this is how the
source counts cells, e.g. `(self.board[4:, 4:] == 1).sum().item()`. -/
def countVal (b : Board) (ps : List Pos) (v : Int) : Nat :=
  (ps.map fun p => if b p.1 p.2 = v then 1 else 0).sum

/-- White's home quadrant: rows 0-3, cols 0-3. -/
def whiteHome : List Pos :=
  (List.range 4).flatMap fun (r : Nat) => (List.range 4).map fun (c : Nat) => ((r : Int), (c : Int))

/-- Black's home quadrant: rows 4-7, cols 4-7. -/
def blackHome : List Pos :=
  (List.range 4).flatMap fun (r : Nat) =>
    (List.range 4).map fun (c : Nat) => ((r : Int) + 4, (c : Int) + 4)

/-- `Ugolki._check_winner`: White wins if all 16 cells of rows 4-7 x cols 4-7
hold a white piece (checked first); otherwise Black wins if all 16 cells of
rows 0-3 x cols 0-3 hold a black piece; otherwise no winner. -/
def check_winner (b : Board) : Option Player :=
  if countVal b blackHome 1 = 16 then some .white
  else if countVal b whiteHome (-1) = 16 then some .black
  else none

/-- Result record of `Ugolki.step` (the returned board is the mutated game's
board, carried separately here). -/
structure StepResult where
  reward : Int
  done : Bool
  winner : Option Player
deriving DecidableEq, Repr

/-- `Ugolki.step`: remembers the mover, applies the action, checks the winner;
reward is 10 if the mover won, -10 if the game is over with the other winner,
0 otherwise. -/
def step (g : Ugolki) (a : MoveAction) : Ugolki × StepResult :=
  let moving_player := g.turn
  let g' := apply_action g a
  match check_winner g'.board with
  | some w =>
      (g', { reward := if w = moving_player then 10 else -10, done := true, winner := some w })
  | none => (g', { reward := 0, done := false, winner := none })

/-- Positions of all pieces with value `v`, in row-major order
(`torch.where(self.board == piece_value)`). -/
def piecePositions (b : Board) (v : Int) : List Pos :=
  (List.range 8).flatMap fun (r : Nat) =>
    (List.range 8).filterMap fun (c : Nat) =>
      if b (r : Int) (c : Int) = v then some ((r : Int), (c : Int)) else none

/-- Destinations of simple one-cell steps from `p`: in-bounds empty orthogonal
neighbours, in `DIRECTIONS` order (part 1 of `get_legal_actions`). -/
def stepDests (b : Board) (p : Pos) : List Pos :=
  DIRECTIONS.filterMap fun d =>
    if is_valid (p.1 + d.1) (p.2 + d.2) ∧ b (p.1 + d.1) (p.2 + d.2) = 0
    then some (p.1 + d.1, p.2 + d.2) else none

/-- State of the jump search of `Ugolki._get_jump_destinations`: the visited
set, the reachable (result) set, and the pending queue. -/
structure BfsState where
  vis : List Pos
  reach : List Pos
  queue : List Pos

/-- One direction probe of the jump search: from frontier square `p`, jumping
over `p + d` onto `p + 2d` is accepted iff the landing square is in bounds,
the middle square is in bounds and occupied by any piece, the landing square
is empty, and the landing square was not already visited. -/
def scanDir (b : Board) (p : Pos) (st : BfsState) (d : Int × Int) : BfsState :=
  let mr := p.1 + d.1
  let mc := p.2 + d.2
  let lr := p.1 + 2 * d.1
  let lc := p.2 + 2 * d.2
  if is_valid lr lc ∧ is_valid mr mc ∧ b mr mc ≠ 0 ∧ b lr lc = 0 ∧ (lr, lc) ∉ st.vis
  then { vis := (lr, lc) :: st.vis, reach := (lr, lc) :: st.reach,
         queue := st.queue ++ [(lr, lc)] }
  else st

/-- The queue loop of `Ugolki._get_jump_destinations`: pop the front of the
queue and probe the four directions.  The source's `while queue:` loop always
terminates because every enqueued square is a fresh in-bounds visited square;
`fuel` is a strict upper bound on the number of iterations (proved below). -/
def jumpBfs (b : Board) : Nat → BfsState → List Pos
  | 0, st => st.reach
  | fuel + 1, st =>
      match st.queue with
      | [] => st.reach
      | p :: rest => jumpBfs b fuel (DIRECTIONS.foldl (scanDir b p) ⟨st.vis, st.reach, rest⟩)

/-- `Ugolki._get_jump_destinations`: all squares reachable from `(start)` via
chains of orthogonal jumps; the starting square is pre-visited so it is never
offered. 200 units of fuel strictly exceed the at most 65 loop iterations. -/
def get_jump_destinations (b : Board) (s : Pos) : List Pos :=
  jumpBfs b 200 ⟨[s], [], [s]⟩

/-- `Ugolki.get_legal_actions`: for every piece of the player to move, the
simple steps followed by the jump destinations, as (from, to) pairs. -/
def get_legal_actions (g : Ugolki) : List MoveAction :=
  (piecePositions g.board (pieceValue g.turn)).flatMap fun p =>
    ((stepDests g.board p).map fun q => (p, q)) ++
      ((get_jump_destinations g.board p).map fun q => (p, q))

/-- `RandomAgent.select_action`: error on an empty legal set, otherwise one of
the legal actions; `random.choice` is modelled by an arbitrary index `choice`
reduced modulo the list length. -/
def select_action (g : Ugolki) (choice : Nat) : Except String MoveAction :=
  match get_legal_actions g with
  | [] => Except.error "No legal actions available"
  | a :: rest =>
      Except.ok ((a :: rest).get ⟨choice % (rest.length + 1), Nat.mod_lt _ (Nat.succ_pos _)⟩)

/-- Session status as stored in the `Game` database row. -/
inductive Status where
  | waiting
  | active
  | completed
deriving DecidableEq, Repr

/-- The fields of the database `Game` row that `handle_move` reads or writes
(board_state / current_turn are kept in the live `Ugolki` value). -/
structure DbGame where
  white_player_id : Nat
  black_player_id : Option Nat
  status : Status
  winner_id : Option Nat
deriving DecidableEq

/-- A loaded session: the database row plus the live `Ugolki` instance from
`active_games`. -/
structure SessionState where
  db : DbGame
  game : Ugolki

/-- `handle_move` from `game_websocket.py`, for a session that exists and is
loaded: reject if the session is not active; reject with "Not your turn" if
the requester is not the participant of the colour to move; reject an action
outside the legal set; otherwise apply `step`, persist, and on a finished game
mark the session completed and record the winner.  Errors are returned with
the state unchanged, mirroring the early `return` after `send_message`. -/
def handle_move (s : SessionState) (userId : Nat) (a : MoveAction) :
    SessionState × Option String :=
  if s.db.status ≠ Status.active then (s, some "Game is not active")
  else if s.game.turn = Player.white ∧ ¬(s.db.white_player_id = userId) then
    (s, some "Not your turn")
  else if s.game.turn = Player.black ∧ ¬(s.db.black_player_id = some userId) then
    (s, some "Not your turn")
  else if a ∉ get_legal_actions s.game then (s, some "Illegal move")
  else
    let r := step s.game a
    let db' : DbGame :=
      if r.2.done then
        { s.db with
          status := Status.completed
          winner_id :=
            match r.2.winner with
            | some .white => some s.db.white_player_id
            | some .black => s.db.black_player_id
            | none => s.db.winner_id }
      else s.db
    ({ db := db', game := r.1 }, none)

/-- Boards reachable from the freshly created game by repeatedly applying an
action drawn from the legal-action set of the board it is applied to. -/
inductive Reachable : Ugolki → Prop where
  | init : Reachable create_game
  | step {g : Ugolki} {a : MoveAction} :
      Reachable g → a ∈ get_legal_actions g → Reachable (apply_action g a)


/-- One legal jump hop as checked inside the search loop: `q` is two squares
from `p` in an orthogonal direction, over an in-bounds occupied middle square,
onto an in-bounds empty square. -/
def JumpEdge (b : Board) (p q : Pos) : Prop :=
  ∃ d ∈ DIRECTIONS, q = (p.1 + 2 * d.1, p.2 + 2 * d.2) ∧
    is_valid (p.1 + 2 * d.1) (p.2 + 2 * d.2) ∧ is_valid (p.1 + d.1) (p.2 + d.2) ∧
    b (p.1 + d.1) (p.2 + d.2) ≠ 0 ∧ b (p.1 + 2 * d.1) (p.2 + 2 * d.2) = 0

/-- Chains of zero or more jump hops starting at `s`. -/
inductive JumpReach (b : Board) (s : Pos) : Pos → Prop where
  | refl : JumpReach b s s
  | tail {p q : Pos} : JumpReach b s p → JumpEdge b p q → JumpReach b s q

/-- Invariant of the jump-search state while the four directions of the popped
square `p` are being probed. -/
structure ScanInv (b : Board) (s p : Pos) (st : BfsState) : Prop where
  queue_sub : ∀ x ∈ st.queue, x ∈ st.vis
  queue_nd : st.queue.Nodup
  vis_nd : st.vis.Nodup
  reach_nd : st.reach.Nodup
  start_vis : s ∈ st.vis
  p_vis : p ∈ st.vis
  p_nq : p ∉ st.queue
  vis_reach : ∀ x ∈ st.vis, x = s ∨ x ∈ st.reach
  reach_props : ∀ x ∈ st.reach, x ∈ st.vis ∧ x ≠ s ∧ is_valid x.1 x.2 ∧ b x.1 x.2 = 0
  vis_rt : ∀ x ∈ st.vis, JumpReach b s x
  vis_bound : ∀ x ∈ st.vis, x = s ∨ is_valid x.1 x.2

/-- Invariant of the jump-search state between loop iterations. -/
structure BfsInv (b : Board) (s : Pos) (st : BfsState) : Prop where
  queue_sub : ∀ x ∈ st.queue, x ∈ st.vis
  queue_nd : st.queue.Nodup
  vis_nd : st.vis.Nodup
  reach_nd : st.reach.Nodup
  start_vis : s ∈ st.vis
  vis_reach : ∀ x ∈ st.vis, x = s ∨ x ∈ st.reach
  reach_props : ∀ x ∈ st.reach, x ∈ st.vis ∧ x ≠ s ∧ is_valid x.1 x.2 ∧ b x.1 x.2 = 0
  vis_rt : ∀ x ∈ st.vis, JumpReach b s x
  vis_bound : ∀ x ∈ st.vis, x = s ∨ is_valid x.1 x.2
  closed : ∀ x ∈ st.vis, x ∉ st.queue → ∀ q, JumpEdge b x q → q ∈ st.vis

/-- Chain-jump test position: a white piece at (0,0), a black piece at (0,1),
a white piece at (0,3), every other cell empty, White to move. -/
def chainGame : Ugolki where
  board := fun r c =>
    if r = 0 ∧ c = 0 then 1
    else if r = 0 ∧ c = 1 then -1
    else if r = 0 ∧ c = 3 then 1
    else 0
  turn := .white

/-- A board on which both players' pieces fully occupy the opposite home
quadrants at once; used to probe the order of the two winner checks. -/
def doubleBoard : Board := fun r c =>
  if 0 ≤ r ∧ r < 4 ∧ 0 ≤ c ∧ c < 4 then -1
  else if 4 ≤ r ∧ r < 8 ∧ 4 ≤ c ∧ c < 8 then 1
  else 0

/-- A position in which Black already satisfies the win condition while a lone
white piece at (7,0) is to move. -/
def oppWinGame : Ugolki where
  board := fun r c =>
    if 0 ≤ r ∧ r < 4 ∧ 0 ≤ c ∧ c < 4 then -1
    else if r = 7 ∧ c = 0 then 1
    else 0
  turn := .white

/-- A position in which White completes the win by moving (3,4) into (4,4). -/
def aboutToWinGame : Ugolki where
  board := fun r c =>
    if 4 ≤ r ∧ r < 8 ∧ 4 ≤ c ∧ c < 8 ∧ ¬(r = 4 ∧ c = 4) then 1
    else if r = 3 ∧ c = 4 then 1
    else 0
  turn := .white

/-- An active session owned by user 1 as White against the agent. -/
def demoSession : SessionState where
  db := { white_player_id := 1, black_player_id := none, status := .active,
          winner_id := none }
  game := create_game

/-! ### Enumeration lemmas -/

theorem filterMap_if_eq (l : List Nat) (g : Nat → Pos) (Q : Nat → Prop) [DecidablePred Q]
    (p : Pos → Bool) (h : ∀ a, Q a ↔ p (g a)) :
    l.filterMap (fun c => if Q c then some (g c) else none) = (l.map g).filter p := by
  induction l with
  | nil => simp
  | cons a t ih =>
      by_cases ha : Q a
      · simp [List.filterMap_cons, List.filter_cons, ha, (h a).mp ha, ih]
      · have hpf : p (g a) = false := by
          rcases Bool.eq_false_or_eq_true (p (g a)) with ht | hf
          · exact absurd ((h a).mpr ht) ha
          · exact hf
        simp [List.filterMap_cons, List.filter_cons, ha, hpf, ih]

theorem piecePositions_eq_filter (b : Board) (v : Int) :
    piecePositions b v = allPos.filter (fun p => decide (b p.1 p.2 = v)) := by
  unfold piecePositions allPos
  rw [List.filter_flatMap]
  apply List.flatMap_congr
  intro r _
  exact filterMap_if_eq _ _ _ _ (fun c => by simp)

theorem allPos_nodup : allPos.Nodup := by decide

theorem mem_allPos {x : Pos} : x ∈ allPos ↔ is_valid x.1 x.2 := by
  obtain ⟨x1, x2⟩ := x
  simp only [allPos, List.mem_flatMap, List.mem_map, List.mem_range, is_valid]
  constructor
  · rintro ⟨r, hr, c, hc, h⟩
    injection h with h1 h2
    subst h1
    subst h2
    exact ⟨by omega, by omega, by omega, by omega⟩
  · rintro ⟨h1, h2, h3, h4⟩
    refine ⟨x1.toNat, by omega, x2.toNat, by omega, ?_⟩
    simp only [Prod.mk.injEq]
    exact ⟨by omega, by omega⟩

theorem mem_piecePositions {b : Board} {v : Int} {x : Pos} :
    x ∈ piecePositions b v ↔ is_valid x.1 x.2 ∧ b x.1 x.2 = v := by
  rw [piecePositions_eq_filter, List.mem_filter, mem_allPos]
  simp

theorem piecePositions_nodup (b : Board) (v : Int) : (piecePositions b v).Nodup := by
  rw [piecePositions_eq_filter]
  exact allPos_nodup.filter _

/-! ### Counting lemmas -/

theorem countVal_cons (b : Board) (p : Pos) (t : List Pos) (v : Int) :
    countVal b (p :: t) v = (if b p.1 p.2 = v then 1 else 0) + countVal b t v := by
  simp [countVal]

theorem countVal_le_length (b : Board) (ps : List Pos) (v : Int) :
    countVal b ps v ≤ ps.length := by
  induction ps with
  | nil => simp [countVal]
  | cons p t ih =>
      rw [countVal_cons, List.length_cons]
      split <;> omega

theorem countVal_eq_length_iff (b : Board) (ps : List Pos) (v : Int) :
    countVal b ps v = ps.length ↔ ∀ p ∈ ps, b p.1 p.2 = v := by
  induction ps with
  | nil => simp [countVal]
  | cons p t ih =>
      rw [countVal_cons, List.length_cons]
      constructor
      · intro h
        have hle := countVal_le_length b t v
        by_cases hv : b p.1 p.2 = v
        · rw [if_pos hv] at h
          have ht : countVal b t v = t.length := by omega
          intro q hq
          rcases List.mem_cons.mp hq with rfl | hq'
          · exact hv
          · exact (ih.mp ht) q hq'
        · rw [if_neg hv] at h
          exact absurd h (by omega)
      · intro h
        rw [if_pos (h p (List.mem_cons_self p t)),
          ih.mpr fun q hq => h q (List.mem_cons.mpr (Or.inr hq))]
        omega

theorem countVal_congr {b b' : Board} {ps : List Pos}
    (h : ∀ p ∈ ps, b' p.1 p.2 = b p.1 p.2) (v : Int) :
    countVal b' ps v = countVal b ps v :=
  congrArg List.sum (List.map_congr_left fun p hp => by rw [h p hp])

theorem sum_map_one_point (f f' : Pos → Nat) (x0 : Pos) :
    ∀ l : List Pos, l.Nodup → x0 ∈ l → (∀ x ∈ l, x ≠ x0 → f' x = f x) →
      (l.map f').sum + f x0 = (l.map f).sum + f' x0 := by
  intro l
  induction l with
  | nil => intro _ hx; cases hx
  | cons a t ih =>
      intro hnd hx hpt
      obtain ⟨ha, hndt⟩ := List.nodup_cons.mp hnd
      rcases List.mem_cons.mp hx with rfl | hx'
      · have ht : t.map f' = t.map f :=
          List.map_congr_left fun y hy =>
            hpt y (List.mem_cons.mpr (Or.inr hy)) fun h => ha (by rw [← h]; exact hy)
      -- the head is the distinguished point; the tails agree
        simp only [List.map_cons, List.sum_cons, ht]
        omega
      · have haf : f' a = f a :=
          hpt a (List.mem_cons_self a t) fun h => ha (by rw [h]; exact hx')
        have hih := ih hndt hx' fun x hxt hxx => hpt x (List.mem_cons.mpr (Or.inr hxt)) hxx
        simp only [List.map_cons, List.sum_cons, haf]
        omega

theorem sum_map_two_point (f f' : Pos → Nat) (src dst : Pos) (hne : src ≠ dst)
    (hswap : f' src + f' dst = f src + f dst) :
    ∀ l : List Pos, l.Nodup → src ∈ l → dst ∈ l →
      (∀ x ∈ l, x ≠ src → x ≠ dst → f' x = f x) →
      (l.map f').sum = (l.map f).sum := by
  intro l
  induction l with
  | nil => intro _ hs; cases hs
  | cons a t ih =>
      intro hnd hs hd hpt
      obtain ⟨ha, hndt⟩ := List.nodup_cons.mp hnd
      rcases List.mem_cons.mp hs with rfl | hs'
      · have hdt : dst ∈ t := by
          rcases List.mem_cons.mp hd with h | h
          · exact absurd h.symm hne
          · exact h
        have h1 := sum_map_one_point f f' dst t hndt hdt fun x hx hxd => by
          refine hpt x (List.mem_cons.mpr (Or.inr hx)) ?_ hxd
          intro hxs
          exact ha (by rw [← hxs]; exact hx)
        simp only [List.map_cons, List.sum_cons]
        omega
      · rcases List.mem_cons.mp hd with rfl | hd'
        · have h1 := sum_map_one_point f f' src t hndt hs' fun x hx hxs => by
            refine hpt x (List.mem_cons.mpr (Or.inr hx)) hxs ?_
            intro hxd
            exact ha (by rw [← hxd]; exact hx)
          simp only [List.map_cons, List.sum_cons]
          omega
        · have has : a ≠ src := fun h => ha (by rw [h]; exact hs')
          have had : a ≠ dst := fun h => ha (by rw [h]; exact hd')
          have hih := ih hndt hs' hd' fun x hx => hpt x (List.mem_cons.mpr (Or.inr hx))
          simp only [List.map_cons, List.sum_cons,
            hpt a (List.mem_cons_self a t) has had, hih]

theorem countVal_swap (b : Board) (src dst : Pos) (w : Int) (l : List Pos)
    (hnd : l.Nodup) (hs : src ∈ l) (hd : dst ∈ l) (hne : src ≠ dst)
    (hz : b dst.1 dst.2 = 0) :
    countVal (setCell (setCell b dst (b src.1 src.2)) src 0) l w = countVal b l w := by
  set b' := setCell (setCell b dst (b src.1 src.2)) src 0 with hb'
  have hsrc' : b' src.1 src.2 = 0 := by
    simp [hb', setCell]
  have hdst' : b' dst.1 dst.2 = b src.1 src.2 := by
    have h1 : ¬(dst.1 = src.1 ∧ dst.2 = src.2) := fun hc => hne (Prod.ext hc.1 hc.2).symm
    simp [hb', setCell, h1]
  unfold countVal
  refine sum_map_two_point _ _ src dst hne ?_ l hnd hs hd ?_
  · simp only [hsrc', hdst', hz]
    exact Nat.add_comm _ _
  · intro x hx hxs hxd
    have h1 : ¬(x.1 = src.1 ∧ x.2 = src.2) := fun hc => hxs (Prod.ext hc.1 hc.2)
    have h2 : ¬(x.1 = dst.1 ∧ x.2 = dst.2) := fun hc => hxd (Prod.ext hc.1 hc.2)
    simp [hb', setCell, h1, h2]

theorem countVal_clear (b : Board) (src : Pos) (w : Int) (l : List Pos)
    (hnd : l.Nodup) (hs : src ∈ l) (hw : w ≠ 0) (hbv : b src.1 src.2 = w) :
    countVal (setCell (setCell b src (b src.1 src.2)) src 0) l w + 1 = countVal b l w := by
  set b' := setCell (setCell b src (b src.1 src.2)) src 0 with hb'
  have hsrc' : b' src.1 src.2 = 0 := by
    simp [hb', setCell]
  have h1 := sum_map_one_point (fun p => if b p.1 p.2 = w then 1 else 0)
    (fun p => if b' p.1 p.2 = w then 1 else 0) src l hnd hs ?_
  · have e1 : (if b src.1 src.2 = w then 1 else 0) = 1 := by rw [hbv, if_pos rfl]
    have e2 : (if b' src.1 src.2 = w then 1 else 0) = 0 := by
      rw [hsrc', if_neg fun h => hw h.symm]
    simp only [e1, e2] at h1
    unfold countVal
    omega
  · intro x hx hxs
    have hc : ¬(x.1 = src.1 ∧ x.2 = src.2) := fun hc => hxs (Prod.ext hc.1 hc.2)
    simp [hb', setCell, hc]

/-! ### The jump search -/

theorem jumpBfs_zero (b : Board) (st : BfsState) : jumpBfs b 0 st = st.reach := rfl

theorem jumpBfs_succ_nil (b : Board) (fuel : Nat) (st : BfsState) (hq : st.queue = []) :
    jumpBfs b (fuel + 1) st = st.reach := by
  obtain ⟨v, r, q⟩ := st
  simp only at hq
  subst hq
  rfl

theorem jumpBfs_succ_cons (b : Board) (fuel : Nat) (st : BfsState) (p : Pos) (rest : List Pos)
    (hq : st.queue = p :: rest) :
    jumpBfs b (fuel + 1) st
      = jumpBfs b fuel (List.foldl (scanDir b p) ⟨st.vis, st.reach, rest⟩ DIRECTIONS) := by
  obtain ⟨v, r, q⟩ := st
  simp only at hq
  subst hq
  rfl

theorem scanDir_vis_mono (b : Board) (p : Pos) (st : BfsState) (d : Int × Int) :
    ∀ x ∈ st.vis, x ∈ (scanDir b p st d).vis := by
  intro x hx
  simp only [scanDir]
  split
  · exact List.mem_cons.mpr (Or.inr hx)
  · exact hx

theorem scanDir_reach_mono (b : Board) (p : Pos) (st : BfsState) (d : Int × Int) :
    ∀ x ∈ st.reach, x ∈ (scanDir b p st d).reach := by
  intro x hx
  simp only [scanDir]
  split
  · exact List.mem_cons.mpr (Or.inr hx)
  · exact hx

theorem scanDir_queue_mono (b : Board) (p : Pos) (st : BfsState) (d : Int × Int) :
    ∀ x ∈ st.queue, x ∈ (scanDir b p st d).queue := by
  intro x hx
  simp only [scanDir]
  split
  · exact List.mem_append.mpr (Or.inl hx)
  · exact hx

theorem scanDir_vis_char (b : Board) (p : Pos) (st : BfsState) (d : Int × Int) :
    ∀ x ∈ (scanDir b p st d).vis, x ∈ st.vis ∨ x ∈ (scanDir b p st d).queue := by
  intro x hx
  simp only [scanDir] at hx ⊢
  split at hx
  · rcases List.mem_cons.mp hx with rfl | hx'
    · right
      split
      · exact List.mem_append.mpr (Or.inr (List.mem_singleton.mpr rfl))
      · next hcond hcond2 => exact absurd ‹_› hcond2
    · exact Or.inl hx'
  · exact Or.inl hx

theorem scanDir_vis_len_mono (b : Board) (p : Pos) (st : BfsState) (d : Int × Int) :
    st.vis.length ≤ (scanDir b p st d).vis.length := by
  simp only [scanDir]
  split
  · simp
  · exact le_refl _

theorem scanDir_len (b : Board) (p : Pos) (st : BfsState) (d : Int × Int) :
    (scanDir b p st d).vis.length + st.queue.length
      = st.vis.length + (scanDir b p st d).queue.length := by
  simp only [scanDir]
  split
  · simp only [List.length_cons, List.length_append]
    simp only [List.length_cons, List.length_nil]
    omega
  · rfl

theorem foldl_vis_mono (b : Board) (p : Pos) :
    ∀ (ds : List (Int × Int))  (st : BfsState),
      ∀ x ∈ st.vis, x ∈ (List.foldl (scanDir b p) st ds).vis := by
  intro ds
  induction ds with
  | nil => intro st x hx; exact hx
  | cons d tl ih =>
      intro st x hx
      exact ih (scanDir b p st d) x (scanDir_vis_mono b p st d x hx)

theorem foldl_reach_mono (b : Board) (p : Pos) :
    ∀ (ds : List (Int × Int)) (st : BfsState),
      ∀ x ∈ st.reach, x ∈ (List.foldl (scanDir b p) st ds).reach := by
  intro ds
  induction ds with
  | nil => intro st x hx; exact hx
  | cons d tl ih =>
      intro st x hx
      exact ih (scanDir b p st d) x (scanDir_reach_mono b p st d x hx)

theorem foldl_queue_mono (b : Board) (p : Pos) :
    ∀ (ds : List (Int × Int)) (st : BfsState),
      ∀ x ∈ st.queue, x ∈ (List.foldl (scanDir b p) st ds).queue := by
  intro ds
  induction ds with
  | nil => intro st x hx; exact hx
  | cons d tl ih =>
      intro st x hx
      exact ih (scanDir b p st d) x (scanDir_queue_mono b p st d x hx)

theorem foldl_vis_char (b : Board) (p : Pos) :
    ∀ (ds : List (Int × Int)) (st : BfsState),
      ∀ x ∈ (List.foldl (scanDir b p) st ds).vis,
        x ∈ st.vis ∨ x ∈ (List.foldl (scanDir b p) st ds).queue := by
  intro ds
  induction ds with
  | nil => intro st x hx; exact Or.inl hx
  | cons d tl ih =>
      intro st x hx
      rcases ih (scanDir b p st d) x hx with hx1 | hq1
      · rcases scanDir_vis_char b p st d x hx1 with hx0 | hq0
        · exact Or.inl hx0
        · exact Or.inr (foldl_queue_mono b p tl (scanDir b p st d) x hq0)
      · exact Or.inr hq1

theorem foldl_vis_len_mono (b : Board) (p : Pos) :
    ∀ (ds : List (Int × Int)) (st : BfsState),
      st.vis.length ≤ (List.foldl (scanDir b p) st ds).vis.length := by
  intro ds
  induction ds with
  | nil => intro st; exact le_refl _
  | cons d tl ih =>
      intro st
      exact le_trans (scanDir_vis_len_mono b p st d) (ih (scanDir b p st d))

theorem foldl_len (b : Board) (p : Pos) :
    ∀ (ds : List (Int × Int)) (st : BfsState),
      (List.foldl (scanDir b p) st ds).vis.length + st.queue.length
        = st.vis.length + (List.foldl (scanDir b p) st ds).queue.length := by
  intro ds
  induction ds with
  | nil => intro st; rfl
  | cons d tl ih =>
      intro st
      have h1 := scanDir_len b p st d
      have h2 := ih (scanDir b p st d)
      simp only [List.foldl_cons]
      omega

theorem scan_covers (b : Board) (p : Pos) :
    ∀ (ds : List (Int × Int)) (st : BfsState) (d : Int × Int), d ∈ ds →
      is_valid (p.1 + 2 * d.1) (p.2 + 2 * d.2) → is_valid (p.1 + d.1) (p.2 + d.2) →
      b (p.1 + d.1) (p.2 + d.2) ≠ 0 → b (p.1 + 2 * d.1) (p.2 + 2 * d.2) = 0 →
      (p.1 + 2 * d.1, p.2 + 2 * d.2) ∈ (List.foldl (scanDir b p) st ds).vis := by
  intro ds
  induction ds with
  | nil => intro st d hd; cases hd
  | cons d0 tl ih =>
      intro st d hd h1 h2 h3 h4
      rcases List.mem_cons.mp hd with rfl | hd'
      · have hmem : (p.1 + 2 * d.1, p.2 + 2 * d.2) ∈ (scanDir b p st d).vis := by
          simp only [scanDir]
          split
          · exact List.mem_cons.mpr (Or.inl rfl)
          · next hcond =>
              by_cases hv : (p.1 + 2 * d.1, p.2 + 2 * d.2) ∈ st.vis
              · exact hv
              · exact absurd ⟨h1, h2, h3, h4, hv⟩ hcond
        exact foldl_vis_mono b p tl (scanDir b p st d) _ hmem
      · exact ih (scanDir b p st d0) d hd' h1 h2 h3 h4

theorem scanDir_inv (b : Board) (s p : Pos) (st : BfsState) (d : Int × Int)
    (hd : d ∈ DIRECTIONS) (hinv : ScanInv b s p st) : ScanInv b s p (scanDir b p st d) := by
  simp only [scanDir]
  split
  · next hc =>
      obtain ⟨hval, hmid, hocc, hemp, hnv⟩ := hc
      refine ⟨?_, ?_, ?_, ?_, ?_, ?_, ?_, ?_, ?_, ?_, ?_⟩
      · intro x hx
        rcases List.mem_append.mp hx with h | h
        · exact List.mem_cons.mpr (Or.inr (hinv.queue_sub x h))
        · exact List.mem_cons.mpr (Or.inl (List.mem_singleton.mp h))
      · refine hinv.queue_nd.append (List.nodup_singleton _) ?_
        intro x hx hx'
        rw [List.mem_singleton] at hx'
        subst hx'
        exact hnv (hinv.queue_sub _ hx)
      · exact List.nodup_cons.mpr ⟨hnv, hinv.vis_nd⟩
      · exact List.nodup_cons.mpr ⟨fun hr => hnv (hinv.reach_props _ hr).1, hinv.reach_nd⟩
      · exact List.mem_cons.mpr (Or.inr hinv.start_vis)
      · exact List.mem_cons.mpr (Or.inr hinv.p_vis)
      · intro hmem
        rcases List.mem_append.mp hmem with h | h
        · exact hinv.p_nq h
        · rw [List.mem_singleton] at h
          exact hnv (h ▸ hinv.p_vis)
      · intro x hx
        rcases List.mem_cons.mp hx with rfl | hx'
        · exact Or.inr (List.mem_cons.mpr (Or.inl rfl))
        · rcases hinv.vis_reach x hx' with h | h
          · exact Or.inl h
          · exact Or.inr (List.mem_cons.mpr (Or.inr h))
      · intro x hx
        rcases List.mem_cons.mp hx with rfl | hx'
        · refine ⟨List.mem_cons.mpr (Or.inl rfl), ?_, hval, hemp⟩
          intro hxs
          exact hnv (by rw [hxs]; exact hinv.start_vis)
        · obtain ⟨h1, h2, h3, h4⟩ := hinv.reach_props x hx'
          exact ⟨List.mem_cons.mpr (Or.inr h1), h2, h3, h4⟩
      · intro x hx
        rcases List.mem_cons.mp hx with rfl | hx'
        · exact JumpReach.tail (hinv.vis_rt p hinv.p_vis) ⟨d, hd, rfl, hval, hmid, hocc, hemp⟩
        · exact hinv.vis_rt x hx'
      · intro x hx
        rcases List.mem_cons.mp hx with rfl | hx'
        · exact Or.inr hval
        · exact hinv.vis_bound x hx'
  · exact hinv

theorem foldl_inv (b : Board) (s p : Pos) :
    ∀ ds : List (Int × Int), (∀ d ∈ ds, d ∈ DIRECTIONS) →
      ∀ st : BfsState, ScanInv b s p st → ScanInv b s p (List.foldl (scanDir b p) st ds) := by
  intro ds
  induction ds with
  | nil => intro _ st h; exact h
  | cons d tl ih =>
      intro hds st h
      exact ih (fun d' hd' => hds d' (List.mem_cons.mpr (Or.inr hd'))) (scanDir b p st d)
        (scanDir_inv b s p st d (hds d (List.mem_cons_self d tl)) h)

theorem bfsInv_init (b : Board) (s : Pos) : BfsInv b s ⟨[s], [], [s]⟩ := by
  refine ⟨?_, ?_, ?_, ?_, ?_, ?_, ?_, ?_, ?_, ?_⟩
  · exact fun x hx => hx
  · exact List.nodup_singleton s
  · exact List.nodup_singleton s
  · exact List.nodup_nil
  · exact List.mem_singleton.mpr rfl
  · intro x hx
    exact Or.inl (List.mem_singleton.mp hx)
  · intro x hx
    cases hx
  · intro x hx
    rw [List.mem_singleton.mp hx]
    exact JumpReach.refl
  · intro x hx
    exact Or.inl (List.mem_singleton.mp hx)
  · intro x hx hnx
    exact absurd hx hnx

theorem pop_inv (b : Board) (s : Pos) (st : BfsState) (hinv : BfsInv b s st)
    (p : Pos) (rest : List Pos) (hq : st.queue = p :: rest) :
    BfsInv b s (List.foldl (scanDir b p) ⟨st.vis, st.reach, rest⟩ DIRECTIONS) := by
  have hqnd : (p :: rest).Nodup := hq ▸ hinv.queue_nd
  have hpv : p ∈ st.vis := hinv.queue_sub p (by rw [hq]; exact List.mem_cons_self p rest)
  have hpr : p ∉ rest := (List.nodup_cons.mp hqnd).1
  have hscan : ScanInv b s p ⟨st.vis, st.reach, rest⟩ :=
    ⟨fun x hx => hinv.queue_sub x (by rw [hq]; exact List.mem_cons.mpr (Or.inr hx)),
     (List.nodup_cons.mp hqnd).2, hinv.vis_nd, hinv.reach_nd, hinv.start_vis, hpv, hpr,
     hinv.vis_reach, hinv.reach_props, hinv.vis_rt, hinv.vis_bound⟩
  have hinv' := foldl_inv b s p DIRECTIONS (fun d hd => hd) _ hscan
  refine ⟨hinv'.queue_sub, hinv'.queue_nd, hinv'.vis_nd, hinv'.reach_nd, hinv'.start_vis,
    hinv'.vis_reach, hinv'.reach_props, hinv'.vis_rt, hinv'.vis_bound, ?_⟩
  intro x hxv hxq q hedge
  rcases foldl_vis_char b p DIRECTIONS ⟨st.vis, st.reach, rest⟩ x hxv with hx0 | hx1
  · by_cases hxp : x = p
    · subst hxp
      obtain ⟨d, hd, rfl, h1, h2, h3, h4⟩ := hedge
      exact scan_covers b x DIRECTIONS ⟨st.vis, st.reach, rest⟩ d hd h1 h2 h3 h4
    · have hxrest : x ∉ rest := fun h =>
        hxq (foldl_queue_mono b p DIRECTIONS ⟨st.vis, st.reach, rest⟩ x h)
      have hxqold : x ∉ st.queue := by
        rw [hq]
        intro h
        rcases List.mem_cons.mp h with h' | h'
        · exact hxp h'
        · exact hxrest h'
      exact foldl_vis_mono b p DIRECTIONS ⟨st.vis, st.reach, rest⟩ q
        (hinv.closed x hx0 hxqold q hedge)
  · exact absurd hx1 hxq

theorem vis_len_le (s : Pos) (vis : List Pos) (hnd : vis.Nodup)
    (hb : ∀ x ∈ vis, x = s ∨ is_valid x.1 x.2) : vis.length ≤ 65 := by
  have hsub : vis ⊆ s :: allPos := by
    intro x hx
    rcases hb x hx with rfl | hv
    · exact List.mem_cons_self _ _
    · exact List.mem_cons.mpr (Or.inr (mem_allPos.mpr hv))
  have h1 := (List.subperm_of_subset hnd hsub).length_le
  have h2 : (s :: allPos).length = 65 := by
    rw [List.length_cons]
    have : allPos.length = 64 := by decide
    omega
  omega

theorem bfs_done (b : Board) (s : Pos) (st : BfsState) (hinv : BfsInv b s st)
    (hq : st.queue = []) :
    (∀ x ∈ st.reach, x ∈ st.reach) ∧ st.reach.Nodup ∧
      (∀ x ∈ st.reach, x ≠ s ∧ is_valid x.1 x.2 ∧ b x.1 x.2 = 0 ∧ JumpReach b s x) ∧
      (∀ x, JumpReach b s x → x = s ∨ x ∈ st.reach) := by
  refine ⟨fun x hx => hx, hinv.reach_nd, ?_, ?_⟩
  · intro x hx
    obtain ⟨h1, h2, h3, h4⟩ := hinv.reach_props x hx
    exact ⟨h2, h3, h4, hinv.vis_rt x h1⟩
  · intro x hx
    have hvis : x ∈ st.vis := by
      induction hx with
      | refl => exact hinv.start_vis
      | tail hr he ihr =>
          exact hinv.closed _ ihr (by rw [hq]; exact List.not_mem_nil _) _ he
    exact hinv.vis_reach x hvis

theorem jumpBfs_spec (b : Board) (s : Pos) :
    ∀ (fuel : Nat) (st : BfsState), BfsInv b s st →
      2 * (65 - st.vis.length) + st.queue.length ≤ fuel →
      (∀ x ∈ st.reach, x ∈ jumpBfs b fuel st) ∧
        (jumpBfs b fuel st).Nodup ∧
        (∀ x ∈ jumpBfs b fuel st, x ≠ s ∧ is_valid x.1 x.2 ∧ b x.1 x.2 = 0 ∧ JumpReach b s x) ∧
        (∀ x, JumpReach b s x → x = s ∨ x ∈ jumpBfs b fuel st) := by
  intro fuel
  induction fuel with
  | zero =>
      intro st hinv hfuel
      have hq : st.queue = [] := List.length_eq_zero.mp (by omega)
      rw [jumpBfs_zero]
      exact bfs_done b s st hinv hq
  | succ fuel ih =>
      intro st hinv hfuel
      cases hq : st.queue with
      | nil =>
          rw [jumpBfs_succ_nil b fuel st hq]
          exact bfs_done b s st hinv hq
      | cons p rest =>
          rw [jumpBfs_succ_cons b fuel st p rest hq]
          have hinv' := pop_inv b s st hinv p rest hq
          have hlen :
              (List.foldl (scanDir b p) ⟨st.vis, st.reach, rest⟩ DIRECTIONS).vis.length
                  + rest.length
                = st.vis.length
                  + (List.foldl (scanDir b p) ⟨st.vis, st.reach, rest⟩ DIRECTIONS).queue.length :=
            foldl_len b p DIRECTIONS ⟨st.vis, st.reach, rest⟩
          have hmono : st.vis.length
              ≤ (List.foldl (scanDir b p) ⟨st.vis, st.reach, rest⟩ DIRECTIONS).vis.length :=
            foldl_vis_len_mono b p DIRECTIONS ⟨st.vis, st.reach, rest⟩
          have hle65 := vis_len_le s _ hinv'.vis_nd hinv'.vis_bound
          have hqlen : st.queue.length = rest.length + 1 := by rw [hq]; rfl
          have hbound :
              2 * (65 - (List.foldl (scanDir b p) ⟨st.vis, st.reach, rest⟩ DIRECTIONS).vis.length)
                + (List.foldl (scanDir b p) ⟨st.vis, st.reach, rest⟩ DIRECTIONS).queue.length
                ≤ fuel := by
            omega
          have hres := ih _ hinv' hbound
          refine ⟨?_, hres.2.1, hres.2.2.1, hres.2.2.2⟩
          intro x hx
          exact hres.1 x (foldl_reach_mono b p DIRECTIONS ⟨st.vis, st.reach, rest⟩ x hx)

theorem get_jump_destinations_spec (b : Board) (s q : Pos) :
    q ∈ get_jump_destinations b s ↔ JumpReach b s q ∧ q ≠ s := by
  have h := jumpBfs_spec b s 200 ⟨[s], [], [s]⟩ (bfsInv_init b s) (by show 2 * (65 - 1) + 1 ≤ 200; norm_num)
  constructor
  · intro hq
    obtain ⟨hne, _, _, hrt⟩ := h.2.2.1 q hq
    exact ⟨hrt, hne⟩
  · rintro ⟨hrt, hne⟩
    rcases h.2.2.2 q hrt with rfl | hq
    · exact absurd rfl hne
    · exact hq

theorem get_jump_destinations_props (b : Board) (s q : Pos)
    (h : q ∈ get_jump_destinations b s) :
    q ≠ s ∧ is_valid q.1 q.2 ∧ b q.1 q.2 = 0 ∧ JumpReach b s q :=
  (jumpBfs_spec b s 200 ⟨[s], [], [s]⟩ (bfsInv_init b s) (by show 2 * (65 - 1) + 1 ≤ 200; norm_num)).2.2.1 q h

theorem get_jump_destinations_nodup (b : Board) (s : Pos) :
    (get_jump_destinations b s).Nodup :=
  (jumpBfs_spec b s 200 ⟨[s], [], [s]⟩ (bfsInv_init b s) (by show 2 * (65 - 1) + 1 ≤ 200; norm_num)).2.1

/-! ### Simple steps and legal actions -/

theorem mem_stepDests {b : Board} {p q : Pos} :
    q ∈ stepDests b p ↔ ∃ d ∈ DIRECTIONS, q = (p.1 + d.1, p.2 + d.2) ∧
      is_valid (p.1 + d.1) (p.2 + d.2) ∧ b (p.1 + d.1) (p.2 + d.2) = 0 := by
  simp only [stepDests, List.mem_filterMap]
  constructor
  · rintro ⟨d, hd, hq⟩
    split at hq
    · next hc =>
        injection hq with h
        exact ⟨d, hd, h.symm, hc.1, hc.2⟩
    · simp at hq
  · rintro ⟨d, hd, rfl, h1, h2⟩
    exact ⟨d, hd, by rw [if_pos ⟨h1, h2⟩]⟩

theorem stepDests_props {b : Board} {p q : Pos} (h : q ∈ stepDests b p) :
    is_valid q.1 q.2 ∧ b q.1 q.2 = 0 ∧ (q.1 + q.2) % 2 ≠ (p.1 + p.2) % 2 := by
  obtain ⟨d, hd, rfl, h1, h2⟩ := mem_stepDests.mp h
  refine ⟨h1, h2, ?_⟩
  obtain ⟨dr, dc⟩ := d
  simp only [DIRECTIONS, List.mem_cons, List.not_mem_nil, or_false, Prod.mk.injEq] at hd
  show (p.1 + dr + (p.2 + dc)) % 2 ≠ (p.1 + p.2) % 2
  rcases hd with ⟨rfl, rfl⟩ | ⟨rfl, rfl⟩ | ⟨rfl, rfl⟩ | ⟨rfl, rfl⟩ <;> omega

theorem stepDests_nodup (b : Board) (p : Pos) : (stepDests b p).Nodup := by
  refine List.Nodup.filterMap ?_ (by decide : DIRECTIONS.Nodup)
  intro d d' q hq hq'
  rw [Option.mem_def] at hq hq'
  split at hq
  · injection hq with h1
    split at hq'
    · injection hq' with h2
      rw [← h2] at h1
      injection h1 with ha hb
      obtain ⟨d1, d2⟩ := d
      obtain ⟨d1', d2'⟩ := d'
      simp only [Prod.mk.injEq]
      constructor
      · omega
      · omega
    · simp at hq'
  · simp at hq

theorem jumpEdge_parity {b : Board} {p q : Pos} (h : JumpEdge b p q) :
    (q.1 + q.2) % 2 = (p.1 + p.2) % 2 := by
  obtain ⟨d, hd, rfl, h1, h2, h3, h4⟩ := h
  show (p.1 + 2 * d.1 + (p.2 + 2 * d.2)) % 2 = (p.1 + p.2) % 2
  omega

theorem jumpReach_parity {b : Board} {s q : Pos} (h : JumpReach b s q) :
    (q.1 + q.2) % 2 = (s.1 + s.2) % 2 := by
  induction h with
  | refl => rfl
  | tail hr he ih => rw [jumpEdge_parity he, ih]

theorem mem_legal_actions {g : Ugolki} {a : MoveAction} :
    a ∈ get_legal_actions g ↔
      a.1 ∈ piecePositions g.board (pieceValue g.turn) ∧
        (a.2 ∈ stepDests g.board a.1 ∨ a.2 ∈ get_jump_destinations g.board a.1) := by
  obtain ⟨p, q⟩ := a
  simp only [get_legal_actions, List.mem_flatMap, List.mem_append, List.mem_map]
  constructor
  · rintro ⟨p', hp', h | h⟩
    · obtain ⟨q', hq', heq⟩ := h
      injection heq with h1 h2
      subst h1
      subst h2
      exact ⟨hp', Or.inl hq'⟩
    · obtain ⟨q', hq', heq⟩ := h
      injection heq with h1 h2
      subst h1
      subst h2
      exact ⟨hp', Or.inr hq'⟩
  · rintro ⟨hp, h | h⟩
    · exact ⟨p, hp, Or.inl ⟨q, h, rfl⟩⟩
    · exact ⟨p, hp, Or.inr ⟨q, h, rfl⟩⟩

theorem pieceValue_ne_zero (t : Player) : pieceValue t ≠ 0 := by
  cases t <;> decide

theorem legal_action_props {g : Ugolki} {a : MoveAction} (h : a ∈ get_legal_actions g) :
    g.board a.1.1 a.1.2 = pieceValue g.turn ∧ g.board a.2.1 a.2.2 = 0 ∧
      is_valid a.1.1 a.1.2 ∧ is_valid a.2.1 a.2.2 ∧ a.1 ≠ a.2 := by
  obtain ⟨hp, hq⟩ := mem_legal_actions.mp h
  obtain ⟨hv, hb⟩ := mem_piecePositions.mp hp
  have hq0 : is_valid a.2.1 a.2.2 ∧ g.board a.2.1 a.2.2 = 0 := by
    rcases hq with h' | h'
    · have hs := stepDests_props h'
      exact ⟨hs.1, hs.2.1⟩
    · have hj := get_jump_destinations_props _ _ _ h'
      exact ⟨hj.2.1, hj.2.2.1⟩
  refine ⟨hb, hq0.2, hv, hq0.1, ?_⟩
  intro heq
  apply pieceValue_ne_zero g.turn
  rw [← hb, heq]
  exact hq0.2

theorem legal_actions_nodup (g : Ugolki) : (get_legal_actions g).Nodup := by
  unfold get_legal_actions
  rw [List.nodup_flatMap]
  constructor
  · intro p hp
    refine List.Nodup.append ?_ ?_ ?_
    · exact (stepDests_nodup g.board p).map fun a b h => by
        injection h with h1 h2
    · exact (get_jump_destinations_nodup g.board p).map fun a b h => by
        injection h with h1 h2
    · intro x hx hx'
      obtain ⟨q, hq, rfl⟩ := List.mem_map.mp hx
      obtain ⟨q', hq', heq⟩ := List.mem_map.mp hx'
      injection heq with h1 h2
      subst h2
      have hpar1 := (stepDests_props hq).2.2
      have hpar2 := jumpReach_parity (get_jump_destinations_props _ _ _ hq').2.2.2
      exact hpar1 hpar2
  · refine List.Pairwise.imp ?_ (piecePositions_nodup g.board (pieceValue g.turn))
    intro p p' hne
    intro x hx hx'
    apply hne
    have e1 : x.1 = p := by
      rcases List.mem_append.mp hx with h | h <;>
        · obtain ⟨q, _, heq⟩ := List.mem_map.mp h
          rw [← heq]
    have e2 : x.1 = p' := by
      rcases List.mem_append.mp hx' with h | h <;>
        · obtain ⟨q, _, heq⟩ := List.mem_map.mp h
          rw [← heq]
    rw [← e1, e2]

/-! ### Board updates and step -/

theorem apply_action_board (g : Ugolki) (a : MoveAction) (r c : Int) :
    (apply_action g a).board r c =
      if r = a.1.1 ∧ c = a.1.2 then 0
      else if r = a.2.1 ∧ c = a.2.2 then g.board a.1.1 a.1.2
      else g.board r c := rfl

theorem apply_action_turn (g : Ugolki) (a : MoveAction) :
    (apply_action g a).turn
      = if g.turn = Player.white then Player.black else Player.white := rfl

theorem counts_preserved (g : Ugolki) (a : MoveAction) (h : a ∈ get_legal_actions g) (w : Int) :
    countVal (apply_action g a).board allPos w = countVal g.board allPos w := by
  obtain ⟨hb, hz, hv1, hv2, hne⟩ := legal_action_props h
  exact countVal_swap g.board a.1 a.2 w allPos allPos_nodup
    (mem_allPos.mpr hv1) (mem_allPos.mpr hv2) hne hz

/-! ### Claims -/

/-- C1, counterexample: on a board where Black already occupies all of White's
home quadrant, White's move produces a board that does not win for White, yet
`step` returns reward -10, not the claimed 0. -/
theorem claim_C1_counterexample :
    oppWinGame.turn = Player.white ∧
    check_winner (apply_action oppWinGame ((7, 0), (7, 1))).board ≠ some Player.white ∧
    (step oppWinGame ((7, 0), (7, 1))).2.reward = -10 ∧
    (step oppWinGame ((7, 0), (7, 1))).2.reward ≠ 0 := by decide

/-- C1, amended: `step` returns reward 10 when the resulting board satisfies
the win condition for the mover's colour, 0 when the resulting board has no
winner, and -10 (rather than 0) when the resulting board has a winner of the
other colour. -/
theorem claim_C1_reward (g : Ugolki) (a : MoveAction) :
    (check_winner (apply_action g a).board = some g.turn → (step g a).2.reward = 10) ∧
    (check_winner (apply_action g a).board = none → (step g a).2.reward = 0) ∧
    (∀ p : Player, check_winner (apply_action g a).board = some p → p ≠ g.turn →
      (step g a).2.reward = -10) := by
  refine ⟨?_, ?_, ?_⟩
  · intro hw
    simp [step, hw]
  · intro hw
    simp [step, hw]
  · intro p hw hp
    simp [step, hw, hp]

/-- C1, witness: a concrete winning move receives reward 10. -/
theorem claim_C1_witness :
    check_winner (apply_action aboutToWinGame ((3, 4), (4, 4))).board
        = some aboutToWinGame.turn ∧
    (step aboutToWinGame ((3, 4), (4, 4))).2.reward = 10 :=
  ⟨by decide, (claim_C1_reward aboutToWinGame ((3, 4), (4, 4))).1 (by decide)⟩

/-- C2 (confirmed): every board reachable from the initial board through legal
actions has exactly 16 White cells and 16 Black cells. -/
theorem claim_C2_conservation (g : Ugolki) (h : Reachable g) :
    countVal g.board allPos 1 = 16 ∧ countVal g.board allPos (-1) = 16 := by
  induction h with
  | init => exact ⟨by decide, by decide⟩
  | step hg hmem ih =>
      exact ⟨(counts_preserved _ _ hmem 1).trans ih.1,
        (counts_preserved _ _ hmem (-1)).trans ih.2⟩

/-- C2, witness: the initial board itself. -/
theorem claim_C2_witness :
    countVal create_game.board allPos 1 = 16 ∧ countVal create_game.board allPos (-1) = 16 :=
  claim_C2_conservation create_game Reachable.init

/-- C3, counterexample: on a board where both win conditions hold at once
(all of White's home quadrant Black and all of Black's home quadrant White)
the winner check returns White, so "returns Black iff all 16 cells of rows 0-3,
cols 0-3 are Black" fails. -/
theorem claim_C3_counterexample :
    check_winner doubleBoard = some Player.white ∧
    countVal doubleBoard whiteHome (-1) = 16 ∧
    some Player.white ≠ some Player.black := by decide

/-- C3, amended: the winner check returns White iff all 16 cells of rows 4-7,
cols 4-7 are White; it returns Black iff all 16 cells of rows 0-3, cols 0-3
are Black AND the White condition does not hold (White is checked first);
otherwise it returns none. -/
theorem claim_C3_winner (b : Board) :
    (check_winner b = some Player.white ↔ ∀ p ∈ blackHome, b p.1 p.2 = 1) ∧
    (check_winner b = some Player.black ↔
      ((∀ p ∈ whiteHome, b p.1 p.2 = -1) ∧ ¬∀ p ∈ blackHome, b p.1 p.2 = 1)) ∧
    (check_winner b = none ↔
      (¬(∀ p ∈ blackHome, b p.1 p.2 = 1) ∧ ¬∀ p ∈ whiteHome, b p.1 p.2 = -1)) := by
  have hw : (countVal b blackHome 1 = 16) ↔ ∀ p ∈ blackHome, b p.1 p.2 = 1 := by
    have hlen : blackHome.length = 16 := by decide
    rw [← hlen]
    exact countVal_eq_length_iff b blackHome 1
  have hbk : (countVal b whiteHome (-1) = 16) ↔ ∀ p ∈ whiteHome, b p.1 p.2 = -1 := by
    have hlen : whiteHome.length = 16 := by decide
    rw [← hlen]
    exact countVal_eq_length_iff b whiteHome (-1)
  rw [← hw, ← hbk]
  unfold check_winner
  by_cases h1 : countVal b blackHome 1 = 16 <;> by_cases h2 : countVal b whiteHome (-1) = 16
  · simp [h1, h2]
  · simp [h1, h2]
  · simp [h1, h2]
  · simp [h1, h2]

/-- C3, witness: the initial board has no winner, via the amended
characterisation. -/
theorem claim_C3_witness : check_winner create_game.board = none :=
  (claim_C3_winner create_game.board).2.2.mpr ⟨by decide, by decide⟩

/-- C4 (confirmed): the jump destinations offered for a square are exactly the
squares reachable from it by chains of orthogonal jumps (over an occupied
middle square onto an in-bounds empty landing square), the origin itself never
being offered; and in the concrete chain-jump position the actions
(0,0)->(0,2) and (0,0)->(0,4) are both legal. -/
theorem claim_C4_jump_search :
    (∀ (b : Board) (s q : Pos),
      q ∈ get_jump_destinations b s ↔ JumpReach b s q ∧ q ≠ s) ∧
    ((0, 0), (0, 2)) ∈ get_legal_actions chainGame ∧
    ((0, 0), (0, 4)) ∈ get_legal_actions chainGame :=
  ⟨get_jump_destinations_spec, by decide, by decide⟩

/-- C5, counterexample: applying the action ((0,0),(0,0)) to the initial board
leaves the destination cell Empty, not equal to the source's prior value 1. -/
theorem claim_C5_counterexample :
    (apply_action create_game ((0, 0), (0, 0))).board 0 0 = 0 ∧
    create_game.board 0 0 = 1 ∧ (0 : Int) ≠ 1 := by decide

/-- C5, amended: for every action whose source and destination coordinates
differ, applying it clears the source cell, writes the source's prior value
into the destination cell, leaves every other cell unchanged, and flips the
turn exactly once; no legality check is performed (the statement holds for
arbitrary, even illegal, actions). -/
theorem claim_C5_apply (g : Ugolki) (a : MoveAction)
    (h1 : is_valid a.1.1 a.1.2) (h2 : is_valid a.2.1 a.2.2) (hne : a.1 ≠ a.2) :
    (apply_action g a).board a.1.1 a.1.2 = 0 ∧
    (apply_action g a).board a.2.1 a.2.2 = g.board a.1.1 a.1.2 ∧
    (∀ r c : Int, ¬(r = a.1.1 ∧ c = a.1.2) → ¬(r = a.2.1 ∧ c = a.2.2) →
      (apply_action g a).board r c = g.board r c) ∧
    (g.turn = Player.white → (apply_action g a).turn = Player.black) ∧
    (g.turn = Player.black → (apply_action g a).turn = Player.white) := by
  refine ⟨?_, ?_, ?_, ?_, ?_⟩
  · rw [apply_action_board, if_pos ⟨rfl, rfl⟩]
  · rw [apply_action_board, if_neg fun hc => hne (Prod.ext hc.1 hc.2).symm,
      if_pos ⟨rfl, rfl⟩]
  · intro r c hc1 hc2
    rw [apply_action_board, if_neg hc1, if_neg hc2]
  · intro ht
    rw [apply_action_turn, ht]
    simp
  · intro ht
    rw [apply_action_turn, ht]
    simp

/-- C5, witness: moving the piece from (0,0) to the empty in-bounds square
(0,4) on the initial board. -/
theorem claim_C5_witness :
    is_valid 0 0 ∧ is_valid 0 4 ∧ ((0, 0) : Pos) ≠ ((0, 4) : Pos) ∧
    (apply_action create_game ((0, 0), (0, 4))).board 0 0 = 0 ∧
    (apply_action create_game ((0, 0), (0, 4))).board 0 4 = create_game.board 0 0 :=
  ⟨by decide, by decide, by decide,
    (claim_C5_apply create_game ((0, 0), (0, 4)) (by decide) (by decide) (by decide)).1,
    (claim_C5_apply create_game ((0, 0), (0, 4)) (by decide) (by decide) (by decide)).2.1⟩

/-- C6 (confirmed): on the initial board (White on rows 0-3 x cols 0-3, Black
on rows 4-7 x cols 4-7, the other 32 cells Empty) with White to move, there
are exactly 16 legal actions. -/
theorem claim_C6_initial_actions :
    create_game.turn = Player.white ∧
    countVal create_game.board whiteHome 1 = 16 ∧
    countVal create_game.board blackHome (-1) = 16 ∧
    countVal create_game.board allPos 0 = 32 ∧
    (get_legal_actions create_game).length = 16 := by decide

/-- C7 (confirmed): the random agent returns a member of the legal-action set
whenever it is non-empty, and fails with the distinct error
"No legal actions available" exactly when it is empty. -/
theorem claim_C7_select_action (g : Ugolki) (choice : Nat) :
    (get_legal_actions g = [] →
      select_action g choice = Except.error "No legal actions available") ∧
    (get_legal_actions g ≠ [] →
      ∃ a, select_action g choice = Except.ok a ∧ a ∈ get_legal_actions g) := by
  constructor
  · intro h
    unfold select_action
    rw [h]
  · intro h
    rcases hl : get_legal_actions g with _ | ⟨a0, rest⟩
    · exact absurd hl h
    · refine ⟨(a0 :: rest).get ⟨choice % (rest.length + 1), Nat.mod_lt _ (Nat.succ_pos _)⟩,
        ?_, ?_⟩
      · unfold select_action
        rw [hl]
      · exact List.get_mem _ _ _

/-- C7, witness: on the initial board the agent returns one of the legal
actions. -/
theorem claim_C7_witness :
    get_legal_actions create_game ≠ [] ∧
    ∃ a, select_action create_game 0 = Except.ok a ∧ a ∈ get_legal_actions create_game :=
  ⟨by decide, (claim_C7_select_action create_game 0).2 (by decide)⟩

/-- C8 (confirmed): a move request on an active, loaded session from a user
who is not the participant of the colour on turn is answered with the error
"Not your turn", and the session (board, turn, status) is returned unchanged. -/
theorem claim_C8_not_your_turn (s : SessionState) (u : Nat) (a : MoveAction)
    (hactive : s.db.status = Status.active)
    (h : (s.game.turn = Player.white ∧ s.db.white_player_id ≠ u) ∨
         (s.game.turn = Player.black ∧ s.db.black_player_id ≠ some u)) :
    handle_move s u a = (s, some "Not your turn") := by
  unfold handle_move
  rw [if_neg fun hne' => hne' hactive]
  rcases h with ⟨ht, hu⟩ | ⟨ht, hu⟩
  · rw [if_pos ⟨ht, hu⟩]
  · rw [if_neg ?_, if_pos ⟨ht, hu⟩]
    rintro ⟨hw, _⟩
    rw [ht] at hw
    cases hw

/-- C8, witness: user 2 attempts to move in user 1's active session while it
is White's turn. -/
theorem claim_C8_witness :
    demoSession.db.status = Status.active ∧
    demoSession.game.turn = Player.white ∧ demoSession.db.white_player_id ≠ 2 ∧
    handle_move demoSession 2 ((0, 0), (0, 1)) = (demoSession, some "Not your turn") :=
  ⟨rfl, rfl, by decide,
    claim_C8_not_your_turn demoSession 2 ((0, 0), (0, 1)) rfl (Or.inl ⟨rfl, by decide⟩)⟩

/-- C9 (confirmed): applying an action with source equal to destination leaves
that cell Empty (the destination write is overwritten by the source clear)
while the turn still flips, and when the cell held a piece the count of that
piece value drops by one, so counts are preserved only by actions whose source
and destination differ. -/
theorem claim_C9_null_move (g : Ugolki) (r c : Int) (h : is_valid r c) :
    (apply_action g ((r, c), (r, c))).board r c = 0 ∧
    (g.turn = Player.white → (apply_action g ((r, c), (r, c))).turn = Player.black) ∧
    (g.turn = Player.black → (apply_action g ((r, c), (r, c))).turn = Player.white) ∧
    (g.board r c ≠ 0 →
      countVal (apply_action g ((r, c), (r, c))).board allPos (g.board r c) + 1
        = countVal g.board allPos (g.board r c)) := by
  refine ⟨?_, ?_, ?_, ?_⟩
  · rw [apply_action_board, if_pos ⟨rfl, rfl⟩]
  · intro ht
    rw [apply_action_turn, ht]
    simp
  · intro ht
    rw [apply_action_turn, ht]
    simp
  · intro hnz
    exact countVal_clear g.board (r, c) (g.board r c) allPos allPos_nodup
      (mem_allPos.mpr h) hnz rfl

/-- C9, witness: the null action at (0,0) on the initial board removes the
white piece there. -/
theorem claim_C9_witness :
    is_valid 0 0 ∧ create_game.board 0 0 ≠ 0 ∧
    (apply_action create_game ((0, 0), (0, 0))).board 0 0 = 0 ∧
    countVal (apply_action create_game ((0, 0), (0, 0))).board allPos
        (create_game.board 0 0) + 1
      = countVal create_game.board allPos (create_game.board 0 0) :=
  ⟨by decide, by decide, (claim_C9_null_move create_game 0 0 (by decide)).1,
    (claim_C9_null_move create_game 0 0 (by decide)).2.2.2 (by decide)⟩

/-- C10 (confirmed): for every game state the legal-action list contains no
duplicate entries. -/
theorem claim_C10_nodup (g : Ugolki) : (get_legal_actions g).Nodup :=
  legal_actions_nodup g

end UgolkiSpec